import Mathlib

/-!
Verification of the aircommit transport layer: the signed-envelope line
codec (`examples/anyfile/encode.py`, `examples/anyfile/decode.py`,
`examples/python/decode.py`), the QR multi-part split/join codec
(`examples/ac_to_qr.py`, `python/qr/qr_to_ac.py`) and the frequency
mapping of the audio FSK modem (`examples/ac_to_sound.py`,
`python/sound/sound_to_ac.py`).

Python strings are embedded as `List Char`, bytes as `List Nat`
(each element < 256), Python `int` as `Int`, and functions that can
`raise`/`sys.exit` as `Except`/`Option` results.
-/

/-- Python strings are modelled as lists of characters. -/
abbrev Str := List Char

/-- Boolean prefix test, `needle` is an initial segment of `hay`
(the primitive underlying Python `str.startswith` and `str.find`). -/
def pfx : Str → Str → Bool
  | [], _ => true
  | _ :: _, [] => false
  | a :: as, b :: bs => a = b && pfx as bs

/-- Index of the first occurrence of `needle` in `hay`
(Python `hay.find(needle)`; `none` when Python returns -1).
An empty needle is found at index 0, as in Python. -/
def strFind (needle : Str) : Str → Option Nat
  | [] => if pfx needle [] then some 0 else none
  | c :: rest =>
    if pfx needle (c :: rest) then some 0
    else (strFind needle rest).map (· + 1)

/-- `needle in hay` (Python substring containment). -/
def containsSub (needle hay : Str) : Bool := (strFind needle hay).isSome

/-- Split at the first occurrence of `sep`:
Python `s.split(sep, 1)` when it yields two pieces, `none` when `sep`
does not occur (Python then yields a single piece). -/
def splitFirst (sep : Str) : Str → Option (Str × Str)
  | [] => if pfx sep [] then some ([], []) else none
  | c :: rest =>
    if pfx sep (c :: rest) then some ([], (c :: rest).drop sep.length)
    else (splitFirst sep rest).map (fun p => (c :: p.1, p.2))

/-- Python `s.split(sep)` for a one-character separator: all pieces,
always at least one (possibly empty) piece. -/
def splitOnChar (sep : Char) : Str → List Str
  | [] => [[]]
  | c :: rest =>
    if c = sep then [] :: splitOnChar sep rest
    else
      match splitOnChar sep rest with
      | [] => [[c]]
      | h :: t => (c :: h) :: t

/-- Decimal digit of a value 0..9 (clamped at 9), as produced by
Python string formatting of a non-negative integer. -/
def digitChar : Nat → Char
  | 0 => '0' | 1 => '1' | 2 => '2' | 3 => '3' | 4 => '4'
  | 5 => '5' | 6 => '6' | 7 => '7' | 8 => '8' | _ => '9'

/-- Fuel-driven decimal rendering; `fuel` bounds the recursion depth so
that the definition is structural (any `fuel > n` yields the decimal
digits of `n`, most significant first). -/
def natReprAux : Nat → Nat → Str
  | 0, _ => []
  | fuel + 1, n =>
    if n < 10 then [digitChar n]
    else natReprAux fuel (n / 10) ++ [digitChar (n % 10)]

/-- Decimal rendering of a natural number (Python `str(n)` / f-string
interpolation of a non-negative `int`). -/
def natRepr (n : Nat) : Str := natReprAux (n + 1) n

/-- Numeric value of a decimal digit character, `none` otherwise. -/
def digitVal (c : Char) : Option Nat :=
  if 48 ≤ c.toNat ∧ c.toNat ≤ 57 then some (c.toNat - 48) else none

/-- Accumulating decimal parser over a digit string. -/
def parseDigitsAux (acc : Nat) : Str → Option Nat
  | [] => some acc
  | c :: rest =>
    match digitVal c with
    | none => none
    | some d => parseDigitsAux (acc * 10 + d) rest

/-- Parse a non-empty all-digit string as a natural number. -/
def parseDigits (s : Str) : Option Nat :=
  match s with
  | [] => none
  | _ => parseDigitsAux 0 s

/-- Characters stripped by Python `str.strip()` (ASCII whitespace). -/
def pySpace (c : Char) : Bool :=
  c = ' ' || c = '\t' || c = '\n' || c = '\x0d' || c = Char.ofNat 11 || c = Char.ofNat 12

/-- Python `s.strip()`. -/
def pyStrip (s : Str) : Str :=
  ((s.dropWhile pySpace).reverse.dropWhile pySpace).reverse

/-- Python `int(s)`: optional surrounding whitespace, optional sign,
then decimal digits; `none` models the `ValueError` raised otherwise.
(Python additionally allows underscore digit separators and non-ASCII
digits; no input in this development uses them.) -/
def pyInt (s : Str) : Option Int :=
  match pyStrip s with
  | [] => none
  | c :: rest =>
    if c = '-' then (parseDigits rest).map (fun n => -(n : Int))
    else if c = '+' then (parseDigits rest).map (fun n => (n : Int))
    else (parseDigits (c :: rest)).map (fun n => (n : Int))

/-! ### Envelope codec (`examples/anyfile/encode.py`, `examples/anyfile/decode.py`,
`examples/python/decode.py`) -/

/-- The two-character envelope marker `"ac"`. -/
def acMark : Str := "ac".data

/-- The signature marker token `"acsig1"` (bech32 HRP `acsig` plus the
bech32 separator `1`). -/
def sigTok : Str := "acsig1".data

/-- `encode.py` line 90: `single_code = f"ac{encoded_file}{sig_bech32}"`. -/
def buildEnvelope (body sig : Str) : Str := acMark ++ body ++ sig

/-- Errors of the envelope parsers (each is a `print` + `sys.exit(1)`
in the Python sources). -/
inductive EnvErr where
  | MalformedEnvelope
  | SignatureMarkerNotFound
  deriving DecidableEq, Repr

/-- `examples/anyfile/decode.py` lines 83-96: require the `"ac"` prefix,
then `sig_index = single_code_line.find("acsig1", 2)` (search starting
at offset 2), error when absent, otherwise split into
`line[2:sig_index]` and `line[sig_index:]`. -/
def parseEnvelope (line : Str) : Except EnvErr (Str × Str) :=
  if pfx acMark line then
    match strFind sigTok (line.drop 2) with
    | none => .error .SignatureMarkerNotFound
    | some j => .ok ((line.drop 2).take j, (line.drop 2).drop j)
  else .error .MalformedEnvelope

/-- `examples/python/decode.py` lines 109-121: require the `"ac"` prefix,
then `sig_start = ac_code.find("acsig1")` — the search starts at offset
0, not 2 — and split into `ac_code[2:sig_start]` and `ac_code[sig_start:]`
(a Python slice `[2:j]` with `j < 2` is empty, hence `take (j - 2)` with
truncated subtraction). -/
def parseEnvelopePy (line : Str) : Except EnvErr (Str × Str) :=
  if pfx acMark line then
    match strFind sigTok line with
    | none => .error .SignatureMarkerNotFound
    | some j => .ok ((line.drop 2).take (j - 2), line.drop j)
  else .error .MalformedEnvelope

/-- The bech32 data-part charset (spec §6; the bech32 library is an
external collaborator). -/
def bech32Charset : Str := "qpzry9x8gf2tvdw0s3jhn5l4kc6mue7a".data

/-- Shape of a valid `acsig`-tagged bech32 signature string (spec §6
wire format: HRP `acsig`, separator `1`, then the bech32 data part
encoding a 64-byte payload: ceil(64 * 8 / 5) = 103 data characters plus
6 checksum characters). The checksum itself is computed and validated by
the external bech32 library and is not modelled. -/
def IsTaggedSig (s : Str) : Prop :=
  pfx sigTok s = true ∧ s.length = 115 ∧ ∀ c ∈ s.drop 6, c ∈ bech32Charset

instance (s : Str) : Decidable (IsTaggedSig s) := by
  unfold IsTaggedSig; infer_instance

/-! ### Base64 encoding (RFC 4648, as `base64.b64encode`; `encode.py`
line 69 applies it to the file bytes) -/

/-- The standard base64 alphabet. -/
def b64Alphabet : Str :=
  "ABCDEFGHIJKLMNOPQRSTUVWXYZabcdefghijklmnopqrstuvwxyz0123456789+/".data

/-- One character of the base64 alphabet (index taken modulo 64 is
irrelevant for valid bytes; `getD` keeps the definition total). -/
def b64Char (i : Nat) : Char := b64Alphabet.getD i 'A'

/-- RFC 4648 base64 of a byte list, with `=` padding
(`base64.b64encode`). -/
def b64encode : List Nat → Str
  | b0 :: b1 :: b2 :: rest =>
    b64Char (b0 / 4) :: b64Char (b0 % 4 * 16 + b1 / 16) ::
    b64Char (b1 % 16 * 4 + b2 / 64) :: b64Char (b2 % 64) :: b64encode rest
  | [b0, b1] =>
    [b64Char (b0 / 4), b64Char (b0 % 4 * 16 + b1 / 16), b64Char (b1 % 16 * 4), '=']
  | [b0] =>
    [b64Char (b0 / 4), b64Char (b0 % 4 * 16), '=', '=']
  | [] => []

/-! ### QR multi-part channel codec
(`examples/ac_to_qr.py` encode side, `python/qr/qr_to_ac.py` decode side) -/

/-- The label separator `"QR: "` of the multi-part frame format. -/
def qrSep : Str := "QR: ".data

/-- Fuel-driven chunking of a string into consecutive pieces of length
`cs` (the slices `base64_data[i:i+chunk_size]` taken by the loop
`for i in range(0, len(base64_data), chunk_size)` in
`split_and_generate_qr_gif`). The fuel bounds the recursion; any fuel
at least `s.length` gives the full chunk list when `cs ≥ 1`.
(`chunk_size = 0` raises `ValueError` in Python's `range`; `max cs 1`
merely keeps the definition total there.) -/
def chunksOfAux : Nat → Nat → Str → List Str
  | 0, _, s => if s = [] then [] else [s]
  | fuel + 1, cs, s =>
    if s = [] then [] else s.take (max cs 1) :: chunksOfAux fuel cs (s.drop (max cs 1))

/-- The list of chunks of `s` of size `cs` (last one possibly shorter). -/
def chunksOf (cs : Nat) (s : Str) : List Str := chunksOfAux s.length cs s

/-- The frame label prefix plus chunk: `f"{i}P{total}QR: " + chunk`
(`split_and_generate_qr_gif` line 123, with `i` already 1-based). -/
def mkLabel (i total : Nat) (chunk : Str) : Str :=
  (natRepr i ++ 'P' :: natRepr total) ++ (qrSep ++ chunk)

/-- Label the chunks in order with 1-based indices starting at `j + 1`
(the loop of `split_and_generate_qr_gif`, where chunk `i:i+chunk_size`
gets index `i // chunk_size + 1`). -/
def labelChunks (total : Nat) : Nat → List Str → List Str
  | _, [] => []
  | j, c :: rest => mkLabel (j + 1) total c :: labelChunks total (j + 1) rest

/-- `split_and_generate_qr_gif(base64_data, chunk_size)` lines 111-126:
`total_parts = (len + chunk_size - 1) // chunk_size`, then one labeled
frame per chunk (QR rendering itself is the external collaborator). -/
def splitParts (b : Str) (cs : Nat) : List Str :=
  labelChunks ((b.length + cs - 1) / cs) 0 (chunksOf cs b)

/-- `splitForQR(body, chunkSize)`: the encode dispatch of
`ac_to_qr.py` `main` lines 142-145 — a single unlabeled frame when the
body fits in one chunk (`len ≤ chunk_size`, the pass-through case),
otherwise the labeled frames of `split_and_generate_qr_gif` — with the
hard-coded `chunk_size = 500` of `main` generalized to the `chunkSize`
parameter of spec §4.2. -/
def splitForQR (b : Str) (cs : Nat) : List Str :=
  if cs < b.length then splitParts b cs else [b]

/-- Errors of `reconstruct_base64` (each a `print` + `sys.exit(1)`,
except `KeyErrorCrash` which models an uncaught `KeyError` in the final
join when a stored part index lies outside `1..total`). -/
inductive QRErr where
  | LabelFormatError
  | MissingParts
  | KeyErrorCrash
  deriving DecidableEq, Repr

/-- Parse one frame: `label, b64data = data.split("QR: ", 1)` then
`part_num, total = label.split("P")` then `int` both
(`reconstruct_base64` lines 92-99; `none` models the caught
`ValueError`). -/
def parseFrame (d : Str) : Option (Int × Int × Str) :=
  match splitFirst qrSep d with
  | none => none
  | some (label, b64data) =>
    match splitOnChar 'P' label with
    | [pn, tot] =>
      match pyInt pn, pyInt tot with
      | some i, some t => some (i, t, b64data)
      | _, _ => none
    | _ => none

/-- Lookup in the model of the Python `parts` dict. -/
def dlookup (k : Int) : List (Int × Str) → Option Str
  | [] => none
  | (k2, v) :: rest => if k2 = k then some v else dlookup k rest

/-- `parts[part_num] = b64data`: replace the stored value when the key
is present, otherwise append (Python dicts preserve insertion order;
`len(parts)` is the number of distinct keys). -/
def dinsert (k : Int) (v : Str) (d : List (Int × Str)) : List (Int × Str) :=
  if (dlookup k d).isSome then d.map (fun e => if e.1 = k then (k, v) else e)
  else d ++ [(k, v)]

/-- The loop body state of `reconstruct_base64`: the `parts` dict and
`total_parts` (overwritten by each frame's declared total). -/
def foldParts (triples : List (Int × Int × Str)) : List (Int × Str) × Option Int :=
  triples.foldl (fun st p => (dinsert p.1 p.2.2 st.1, some p.2.1)) ([], none)

/-- Python `range(1, t + 1)` as a list of ints. -/
def pyRange1 (t : Int) : List Int := (List.range t.toNat).map (fun m => ((m + 1 : Nat) : Int))

/-- `''.join(parts[i] for i in range(1, total_parts + 1))`: `none`
models the uncaught `KeyError` when some index is missing from the
dict even though the count check passed. -/
def gatherParts (parts : List (Int × Str)) : List Int → Option Str
  | [] => some []
  | i :: rest =>
    match dlookup i parts, gatherParts parts rest with
    | some c, some r => some (c ++ r)
    | _, _ => none

/-- The final check and join of `reconstruct_base64` (lines 104-110):
`total_parts is None or len(parts) != total_parts` exits with the
missing-parts message, otherwise the chunks are concatenated in
ascending index order `1..total_parts`. -/
def joinPhase (parts : List (Int × Str)) (totalParts : Option Int) : Except QRErr Str :=
  match totalParts with
  | none => .error .MissingParts
  | some t =>
    if (parts.length : Int) = t then
      match gatherParts parts (pyRange1 t) with
      | none => .error .KeyErrorCrash
      | some s => .ok s
    else .error .MissingParts

/-- The multi-part branch of `reconstruct_base64` (lines 87-110): parse
every frame (exiting on the first `ValueError`), group the chunks by
index, then check and join. -/
def reconstructMulti (ds : List Str) : Except QRErr Str :=
  match ds.mapM parseFrame with
  | none => .error .LabelFormatError
  | some triples => joinPhase (foldParts triples).1 (foldParts triples).2

/-- `reconstruct_base64(data_list)` (`python/qr/qr_to_ac.py` lines
71-110): a single string is returned verbatim; otherwise every string
must parse as a labeled frame, parts are grouped by index with
later frames overwriting earlier ones, `total_parts` is the last
frame's declared total, the part count must equal it, and the chunks
are concatenated in ascending index order. -/
def reconstructBase64 (dataList : List Str) : Except QRErr Str :=
  match dataList with
  | [d] => .ok d
  | ds => reconstructMulti ds

/-! ### Audio FSK modem, frequency mapping
(`examples/ac_to_sound.py` encode side, `python/sound/sound_to_ac.py`
decode side). Frequencies are modelled as exact rationals; the two
sides share the constants `FREQ_START = 300`, `FREQ_STEP = 50`,
`FREQ_TOLERANCE = 10`. -/

/-- `BASE64_CHARS` of `examples/ac_to_sound.py` line 18 (encode side). -/
def sndAlphabet : Str :=
  "ABCDEFGHIJKLMNOPQRSTUVWXYZabcdefghijklmnopqrstuvwxyz0123456789+/".data

/-- `BASE64_CHARS` of `python/sound/sound_to_ac.py` line 28 (decode side). -/
def rcvAlphabet : Str :=
  "ABCDEFGHIJKLMNOPQRSTUVWXYZabcdefghijklmnopqrstuvwxyz0123456789+/".data

/-- Python `abs` on a rational value. -/
def ratAbs (q : ℚ) : ℚ := if q < 0 then -q else q

/-- `BASE64_CHARS.index(char)` (encode side): position of a character
in the alphabet, `none` when absent. -/
def alphaIndex (c : Char) : Str → Option Nat
  | [] => none
  | a :: rest => if a = c then some 0 else (alphaIndex c rest).map (· + 1)

/-- The tone frequency of one character:
`FREQ_START + BASE64_CHARS.index(char) * FREQ_STEP`
(`generate_audio_from_base64` line 92), `none` for a character outside
the alphabet (which line 97 skips with a warning). -/
def charFrequency (c : Char) : Option ℚ :=
  (alphaIndex c sndAlphabet).map (fun i => 300 + (i : ℚ) * 50)

/-- The per-character frequency stream of the generated waveform:
`generate_audio_from_base64` lines 89-99 appends one pure tone of
`charFrequency c` per in-alphabet character and skips the rest, so the
waveform is the concatenation of one fixed-length tone per entry of
this list (the sine synthesis itself is numeric and irrelevant to the
symbol stream). -/
def generateFrequencies (s : Str) : List ℚ := s.filterMap charFrequency

/-- The scan of `map_frequency_to_base64_char`
(`python/sound/sound_to_ac.py` lines 128-133): try alphabet slots in
order, accepting the first whose expected frequency
`FREQ_START + index * FREQ_STEP` is within `FREQ_TOLERANCE` of the
detected frequency. -/
def mapFreqAux (f : ℚ) : Nat → Str → Option Char
  | _, [] => none
  | idx, c :: rest =>
    if ratAbs (f - (300 + (idx : ℚ) * 50)) ≤ 10 then some c
    else mapFreqAux f (idx + 1) rest

/-- `map_frequency_to_base64_char(frequency)`: `none` models the
`ValueError` raised when no slot is within tolerance. -/
def mapFrequencyToB64Char (f : ℚ) : Option Char := mapFreqAux f 0 rcvAlphabet

/-- The character-collection loop of `sound_to_ac.py` `main` lines
206-214 applied to the dominant frequencies detected per window: each
window whose frequency maps to a character contributes it, windows
raising `ValueError` are skipped (dropped). -/
def decodeFrequencies (freqs : List ℚ) : Str :=
  freqs.filterMap mapFrequencyToB64Char

/-! ### Public-key decoding of `examples/python/decode.py` (for C10)

`decode_bech32_public_key` (lines 67-90) first calls the external
bech32 library: `hrp, data = bech32_decode(bech32_string)` and
`decoded = convertbits(data, 5, 8, False)` (spec §6 external
collaborators). The embedding therefore takes the results of those two
calls as inputs and models the function's own logic on them. -/

/-- Python exceptions distinguished by C10. -/
inductive PyExn where
  | valueError
  | typeError
  deriving DecidableEq, Repr

/-- The expected HRP `"acpub"`. -/
def acpubHrp : Str := "acpub".data

/-- `decode_bech32_public_key` of `examples/python/decode.py` lines
67-90, parametrized by the external results `hrp` (from
`bech32_decode`; `none` models Python `None`) and `decoded` (from
`convertbits`): wrong HRP raises `ValueError`; `decoded is None` raises
`ValueError`; then the length check `len(pubkey_bytes) not in (64)`
evaluates `(64)` to the integer 64, and the `in` operator applied to an
integer right-hand side raises `TypeError: argument of type 'int' is
not iterable` unconditionally, before any comparison of the length. -/
def decodeBech32PublicKey (hrp : Option Str) (decoded : Option (List Nat)) :
    Except PyExn (List Nat) :=
  if hrp = some acpubHrp then
    match decoded with
    | none => .error .valueError
    | some _pubkeyBytes => .error .typeError
  else .error .valueError

/-! ### Concrete inputs used by witnesses and counterexamples -/

/-- A signature string of valid `acsig` shape (tag, separator, 109
bech32 data characters). -/
def sigExample : Str := sigTok ++ List.replicate 109 'q'

/-- Bytes whose base64 encoding is the string `"acsig1aa"`, which
contains the signature marker token. -/
def trapBytes : List Nat := [105, 203, 34, 131, 86, 154]

/-- The bytes of `"Hello"`; base64 `"SGVsbG8="`. -/
def helloBytes : List Nat := [72, 101, 108, 108, 111]

/-- The triples `(part_num, total, chunk)` produced by parsing the
labeled frames of consecutive chunks with 1-based indices starting at
`j + 1` (proof scaffolding mirroring `labelChunks`). -/
def tripleList (total : Nat) : Nat → List Str → List (Int × Int × Str)
  | _, [] => []
  | j, c :: rest => (((j + 1 : Nat) : Int), ((total : Nat) : Int), c) :: tripleList total (j + 1) rest

/-- The `parts` dict contents for consecutive chunks with 1-based
indices starting at `j + 1` (proof scaffolding). -/
def pairList : Nat → List Str → List (Int × Str)
  | _, [] => []
  | j, c :: rest => (((j + 1 : Nat) : Int), c) :: pairList (j + 1) rest

/-- Equality of `Except` results is decidable componentwise. -/
instance {E A : Type} [DecidableEq E] [DecidableEq A] : DecidableEq (Except E A) := fun x y =>
  match x, y with
  | .error e, .error f => decidable_of_iff (e = f) (by simp)
  | .error _, .ok _ => isFalse (by simp)
  | .ok _, .error _ => isFalse (by simp)
  | .ok a, .ok b => decidable_of_iff (a = b) (by simp)

/-! ## Lemmas: characters and substring search -/

lemma sigTok_def : sigTok = 'a' :: 'c' :: 's' :: 'i' :: 'g' :: '1' :: [] := rfl

lemma acMark_def : acMark = 'a' :: 'c' :: [] := rfl

lemma pfx_append_self (s t : Str) : pfx s (s ++ t) = true := by
  induction s with
  | nil => rfl
  | cons c rest ih => simp [pfx, ih]

lemma pfx_long (sep t u : Str) (h : sep.length ≤ t.length) :
    pfx sep (t ++ u) = pfx sep t := by
  induction sep generalizing t with
  | nil => simp [pfx]
  | cons a as ih =>
    cases t with
    | nil => simp at h
    | cons c ct => simp [pfx, ih ct (by simpa using h)]

lemma pfx_eq_append {p s : Str} (h : pfx p s = true) : s = p ++ s.drop p.length := by
  induction p generalizing s with
  | nil => simp
  | cons a as ih =>
    cases s with
    | nil => simp [pfx] at h
    | cons c cs =>
      simp [pfx] at h
      obtain ⟨h1, h2⟩ := h
      subst h1
      simpa using ih h2

lemma strFind_of_pfx {n s : Str} (h : pfx n s = true) : strFind n s = some 0 := by
  cases s <;> simp [strFind, h]

lemma containsSub_false_iff {n s : Str} : containsSub n s = false ↔ strFind n s = none := by
  cases hf : strFind n s <;> simp [containsSub, hf]

lemma strFind_cons_none {n : Str} {c : Char} {rest : Str} :
    strFind n (c :: rest) = none ↔ pfx n (c :: rest) = false ∧ strFind n rest = none := by
  rcases hp : pfx n (c :: rest) <;> simp [strFind, hp, Option.map_eq_none']

/-- A match of the marker token cannot straddle the boundary between a
non-empty short prefix `t` and a following string starting with `'a'`:
every proper suffix of `"acsig1"` starts with a character other than
`'a'`. -/
lemma pfx_sigTok_straddle (t u : Str) (h1 : t ≠ []) (h2 : t.length < 6) :
    pfx sigTok (t ++ 'a' :: u) = false := by
  rcases t with _ | ⟨c1, t⟩
  · exact absurd rfl h1
  rcases t with _ | ⟨c2, t⟩
  · simp [sigTok_def, pfx]
  rcases t with _ | ⟨c3, t⟩
  · simp [sigTok_def, pfx]
  rcases t with _ | ⟨c4, t⟩
  · simp [sigTok_def, pfx]
  rcases t with _ | ⟨c5, t⟩
  · simp [sigTok_def, pfx]
  rcases t with _ | ⟨c6, t⟩
  · simp [sigTok_def, pfx]
  simp at h2
  omega

/-- When the body does not contain the marker token, the first
occurrence of the token in `body ++ "acsig1" ++ r` is exactly at
`body.length`. -/
lemma strFind_marker (body r : Str) (h : containsSub sigTok body = false) :
    strFind sigTok (body ++ (sigTok ++ r)) = some body.length := by
  induction body with
  | nil =>
    simpa using strFind_of_pfx (pfx_append_self sigTok r)
  | cons c rest ih =>
    have hsplit := strFind_cons_none.1 (containsSub_false_iff.1 h)
    have hpf : pfx sigTok (c :: (rest ++ (sigTok ++ r))) = false := by
      by_cases hl : 6 ≤ (c :: rest).length
      · have heq : c :: (rest ++ (sigTok ++ r)) = (c :: rest) ++ (sigTok ++ r) := rfl
        rw [heq, pfx_long sigTok (c :: rest) (sigTok ++ r) (by simpa [sigTok_def] using hl)]
        exact hsplit.1
      · have hshape : c :: (rest ++ (sigTok ++ r))
            = (c :: rest) ++ 'a' :: (('c' :: 's' :: 'i' :: 'g' :: '1' :: []) ++ r) := by
          simp [sigTok_def]
        rw [hshape]
        exact pfx_sigTok_straddle (c :: rest) _ (by simp) (by simp at hl ⊢; omega)
    have hrest : containsSub sigTok rest = false := containsSub_false_iff.2 hsplit.2
    simp [strFind, hpf, ih hrest]

/-! ## C1: envelope round-trip -/

/-- C1 (counterexample): the claimed round-trip fails for some byte
sequence and valid tagged signature. The bytes `trapBytes` encode to
the base64 string `"acsig1aa"`, which contains the signature marker
token, so parsing splits at offset 2 (empty body) instead of at the
real signature: the parsed pair is not `(base64(b), s)`. -/
theorem C1_roundtrip_counterexample :
    IsTaggedSig sigExample ∧
    b64encode trapBytes = 'a' :: 'c' :: 's' :: 'i' :: 'g' :: '1' :: 'a' :: 'a' :: [] ∧
    parseEnvelope (buildEnvelope (b64encode trapBytes) sigExample) ≠
      Except.ok (b64encode trapBytes, sigExample) := by
  refine ⟨by decide, by decide, by decide⟩

/-- C1 (amended): for every byte sequence `b` and valid `acsig`-tagged
signature string `s`, provided the base64 encoding of `b` does not
contain the marker token `"acsig1"`, parsing the envelope built as
`"ac" + base64(b) + s` returns exactly `(base64(b), s)`. -/
theorem C1_roundtrip_no_marker_in_body (b : List Nat) (s : Str) (hs : IsTaggedSig s)
    (hb : containsSub sigTok (b64encode b) = false) :
    parseEnvelope (buildEnvelope (b64encode b) s) = .ok (b64encode b, s) := by
  obtain ⟨hpfx, -, -⟩ := hs
  obtain ⟨r, hr⟩ : ∃ r, s = sigTok ++ r := by
    refine ⟨s.drop 6, ?_⟩
    simpa [sigTok_def] using pfx_eq_append hpfx
  subst hr
  unfold parseEnvelope buildEnvelope
  have h1 : pfx acMark (acMark ++ b64encode b ++ (sigTok ++ r)) = true := by
    simpa [List.append_assoc] using pfx_append_self acMark (b64encode b ++ (sigTok ++ r))
  rw [if_pos h1]
  have h2 : (acMark ++ b64encode b ++ (sigTok ++ r)).drop 2 = b64encode b ++ (sigTok ++ r) := by
    simp [acMark_def]
  rw [h2, strFind_marker _ _ hb]
  simp [List.take_left, List.drop_left]

/-- C1 (witness): the amended round-trip at the bytes of `"Hello"`. -/
theorem C1_roundtrip_witness :
    IsTaggedSig sigExample ∧
    containsSub sigTok (b64encode helloBytes) = false ∧
    parseEnvelope (buildEnvelope (b64encode helloBytes) sigExample) =
      .ok (b64encode helloBytes, sigExample) :=
  ⟨by decide, by decide,
    C1_roundtrip_no_marker_in_body helloBytes sigExample (by decide) (by decide)⟩

/-! ## C2: envelope parse split rule -/

/-- C2: on the line `"acsig1q"` — which starts with the `"ac"` marker
but contains no occurrence of `"acsig1"` at or after offset 2 — the
claimed rule (and `examples/anyfile/decode.py`, which searches with
`find("acsig1", 2)`) yields `SignatureMarkerNotFound`, while
`examples/python/decode.py` (which searches with `find("acsig1")`,
starting at offset 0) instead succeeds, returning an empty body and the
whole line as the signature. -/
theorem C2_python_decoder_finds_marker_before_offset_2 :
    parseEnvelope (("acsig1q").data) = .error .SignatureMarkerNotFound ∧
    parseEnvelopePy (("acsig1q").data) = .ok ([], ("acsig1q").data) := by
  refine ⟨by decide, by decide⟩

/-! ## Lemmas: decimal rendering, Python int parsing, chunking, and
the QR label grammar -/

lemma digitChar_bounds (n : Nat) : 48 ≤ (digitChar n).toNat ∧ (digitChar n).toNat ≤ 57 := by
  unfold digitChar
  split <;> decide

lemma digitVal_digitChar : ∀ n < 10, digitVal (digitChar n) = some n := by decide

lemma natReprAux_ne_nil {fuel n : Nat} (h : 0 < fuel) : natReprAux fuel n ≠ [] := by
  cases fuel with
  | zero => omega
  | succ f =>
    unfold natReprAux
    split <;> simp

lemma natReprAux_digits : ∀ fuel n c, c ∈ natReprAux fuel n →
    48 ≤ c.toNat ∧ c.toNat ≤ 57 := by
  intro fuel
  induction fuel with
  | zero => intro n c hc; simp [natReprAux] at hc
  | succ f ih =>
    intro n c hc
    rw [natReprAux] at hc
    by_cases h10 : n < 10
    · rw [if_pos h10] at hc
      simp at hc
      subst hc
      exact digitChar_bounds n
    · rw [if_neg h10] at hc
      rcases List.mem_append.1 hc with h | h
      · exact ih _ c h
      · simp at h
        subst h
        exact digitChar_bounds (n % 10)

lemma parseDigitsAux_append (xs ys : Str) (acc : Nat) :
    parseDigitsAux acc (xs ++ ys)
      = (parseDigitsAux acc xs).bind (fun m => parseDigitsAux m ys) := by
  induction xs generalizing acc with
  | nil => simp [parseDigitsAux]
  | cons c rest ih =>
    simp only [List.cons_append, parseDigitsAux]
    cases digitVal c with
    | none => simp
    | some d => simp [ih]

lemma parseDigitsAux_natReprAux : ∀ fuel n acc, n < fuel →
    parseDigitsAux acc (natReprAux fuel n)
      = some (acc * 10 ^ (natReprAux fuel n).length + n) := by
  intro fuel
  induction fuel with
  | zero => intro n acc h; omega
  | succ f ih =>
    intro n acc h
    rw [natReprAux]
    by_cases h10 : n < 10
    · rw [if_pos h10]
      simp [parseDigitsAux, digitVal_digitChar n h10]
    · rw [if_neg h10]
      have hdiv : n / 10 < f := by
        have h1 : n / 10 < n := Nat.div_lt_self (by omega) (by omega)
        omega
      rw [parseDigitsAux_append]
      rw [ih (n / 10) acc hdiv]
      have hm : n % 10 < 10 := Nat.mod_lt n (by omega)
      simp only [Option.some_bind, parseDigitsAux, digitVal_digitChar (n % 10) hm]
      have key : (acc * 10 ^ (natReprAux f (n / 10)).length + n / 10) * 10 + n % 10
          = acc * 10 ^ ((natReprAux f (n / 10)).length + 1) + n := by
        have expand : (acc * 10 ^ (natReprAux f (n / 10)).length + n / 10) * 10 + n % 10
            = acc * (10 ^ (natReprAux f (n / 10)).length * 10) + (n / 10 * 10 + n % 10) := by
          ring
        rw [expand, pow_succ]
        omega
      simp [parseDigitsAux, key, List.length_append]

lemma parseDigits_natRepr (n : Nat) : parseDigits (natRepr n) = some n := by
  unfold natRepr parseDigits
  have hne := @natReprAux_ne_nil (n + 1) n (by omega)
  have hp := parseDigitsAux_natReprAux (n + 1) n 0 (by omega)
  cases hr : natReprAux (n + 1) n with
  | nil => exact absurd hr hne
  | cons c rest =>
    rw [hr] at hp
    simpa using hp

lemma pySpace_of_digit {c : Char} (h1 : 48 ≤ c.toNat) (h2 : c.toNat ≤ 57) :
    pySpace c = false := by
  have k : ∀ d : Char, d.toNat < 48 → c = d → False := fun d hlt hd => by subst hd; omega
  unfold pySpace
  simp only [Bool.or_eq_false_iff, decide_eq_false_iff_not]
  and_intros <;> (intro hc; exact k _ (by decide) hc)

lemma dropWhile_all_false {p : Char → Bool} {l : Str} (h : ∀ c ∈ l, p c = false) :
    l.dropWhile p = l := by
  cases l with
  | nil => rfl
  | cons c t =>
    rw [List.dropWhile_cons, h c (by simp)]
    simp

lemma pyStrip_digits {l : Str} (h : ∀ c ∈ l, 48 ≤ c.toNat ∧ c.toNat ≤ 57) :
    pyStrip l = l := by
  have hall : ∀ c ∈ l, pySpace c = false := fun c hc => pySpace_of_digit (h c hc).1 (h c hc).2
  unfold pyStrip
  rw [dropWhile_all_false hall]
  rw [dropWhile_all_false (fun c hc => hall c (List.mem_reverse.1 hc))]
  simp

lemma pyInt_natRepr (n : Nat) : pyInt (natRepr n) = some ((n : Nat) : Int) := by
  have hd : ∀ c ∈ natRepr n, 48 ≤ c.toNat ∧ c.toNat ≤ 57 :=
    fun c hc => natReprAux_digits (n + 1) n c hc
  unfold pyInt
  rw [pyStrip_digits hd]
  cases hr : natRepr n with
  | nil => exact absurd hr (natReprAux_ne_nil (by omega))
  | cons c rest =>
    have hc : 48 ≤ c.toNat ∧ c.toNat ≤ 57 := hd c (by rw [hr]; simp)
    have hc1 : ¬(c = '-') := fun he => by
      rw [he] at hc
      exact absurd hc.1 (by decide)
    have hc2 : ¬(c = '+') := fun he => by
      rw [he] at hc
      exact absurd hc.1 (by decide)
    have hparse := parseDigits_natRepr n
    rw [hr] at hparse
    simp [hc1, hc2, hparse]

lemma qrSep_def : qrSep = 'Q' :: 'R' :: ':' :: ' ' :: [] := rfl

lemma chunksOfAux_congr : ∀ f1 f2 cs (s : Str), s.length ≤ f1 → s.length ≤ f2 →
    chunksOfAux f1 cs s = chunksOfAux f2 cs s := by
  intro f1
  induction f1 with
  | zero =>
    intro f2 cs s h1 h2
    have hs : s = [] := by
      cases s with
      | nil => rfl
      | cons c t => simp at h1
    subst hs
    cases f2 <;> simp [chunksOfAux]
  | succ f ih =>
    intro f2 cs s h1 h2
    cases s with
    | nil => cases f2 <;> simp [chunksOfAux]
    | cons c t =>
      cases f2 with
      | zero => simp at h2
      | succ g =>
        rw [chunksOfAux, chunksOfAux, if_neg (by simp), if_neg (by simp)]
        congr 1
        refine ih g cs ((c :: t).drop (max cs 1)) ?_ ?_ <;>
          (simp only [List.length_drop, List.length_cons] at h1 h2 ⊢; omega)

lemma chunksOf_cons {cs : Nat} (hcs : 1 ≤ cs) {s : Str} (hs : s ≠ []) :
    chunksOf cs s = s.take cs :: chunksOf cs (s.drop cs) := by
  unfold chunksOf
  cases s with
  | nil => exact absurd rfl hs
  | cons c t =>
    rw [show (c :: t).length = t.length + 1 from rfl, chunksOfAux, if_neg (by simp),
      max_eq_left hcs]
    congr 1
    refine chunksOfAux_congr t.length ((c :: t).drop cs).length cs _ ?_ le_rfl
    simp only [List.length_drop, List.length_cons]
    omega

lemma chunksOfAux_flatten : ∀ fuel cs, 1 ≤ cs → ∀ s : Str, s.length ≤ fuel →
    (chunksOfAux fuel cs s).flatten = s := by
  intro fuel
  induction fuel with
  | zero =>
    intro cs h s hs
    have : s = [] := by
      cases s with
      | nil => rfl
      | cons c t => simp at hs
    subst this
    simp [chunksOfAux]
  | succ f ih =>
    intro cs h s hs
    cases s with
    | nil => simp [chunksOfAux]
    | cons c t =>
      rw [chunksOfAux, if_neg (by simp), max_eq_left h, List.flatten_cons,
        ih cs h _ (by simp only [List.length_drop, List.length_cons] at hs ⊢; omega)]
      exact List.take_append_drop cs (c :: t)

lemma chunksOf_flatten {cs : Nat} (hcs : 1 ≤ cs) (s : Str) :
    (chunksOf cs s).flatten = s :=
  chunksOfAux_flatten s.length cs hcs s le_rfl

lemma chunksOfAux_length : ∀ fuel cs, 1 ≤ cs → ∀ s : Str, s.length ≤ fuel →
    (chunksOfAux fuel cs s).length = (s.length + cs - 1) / cs := by
  intro fuel
  induction fuel with
  | zero =>
    intro cs h s hs
    have : s = [] := by
      cases s with
      | nil => rfl
      | cons c t => simp at hs
    subst this
    simp [chunksOfAux]
    exact (Nat.div_eq_of_lt (by omega)).symm
  | succ f ih =>
    intro cs h s hs
    cases s with
    | nil =>
      simp [chunksOfAux]
      exact (Nat.div_eq_of_lt (by omega)).symm
    | cons c t =>
      rw [chunksOfAux, if_neg (by simp), max_eq_left h, List.length_cons,
        ih cs h ((c :: t).drop cs)
          (by simp only [List.length_drop, List.length_cons] at hs ⊢; omega),
        List.length_drop]
      have hlen1 : 1 ≤ (c :: t).length := by simp
      by_cases hle : (c :: t).length ≤ cs
      · have e1 : (c :: t).length - cs + cs - 1 = cs - 1 := by omega
        have e2 : (c :: t).length + cs - 1 = ((c :: t).length - 1) + cs := by omega
        rw [e1, e2, Nat.add_div_right _ (by omega), @Nat.div_eq_of_lt (cs - 1) cs (by omega),
          @Nat.div_eq_of_lt ((c :: t).length - 1) cs (by omega)]
      · have e3 : (c :: t).length - cs + cs - 1 = (c :: t).length - 1 := by omega
        have e2 : (c :: t).length + cs - 1 = ((c :: t).length - 1) + cs := by omega
        rw [e2, e3, Nat.add_div_right _ (by omega)]

lemma chunksOf_length {cs : Nat} (hcs : 1 ≤ cs) (s : Str) :
    (chunksOf cs s).length = (s.length + cs - 1) / cs :=
  chunksOfAux_length s.length cs hcs s le_rfl

lemma splitFirst_of_pfx {s : Str} (h : pfx qrSep s = true) :
    splitFirst qrSep s = some ([], s.drop 4) := by
  cases s with
  | nil => exact absurd h (by decide)
  | cons c rest =>
    rw [qrSep_def] at h ⊢
    simp [splitFirst, h]

lemma splitFirst_qrSep (pre rest : Str) (h : ∀ c ∈ pre, c ≠ 'Q') :
    splitFirst qrSep (pre ++ (qrSep ++ rest)) = some (pre, rest) := by
  induction pre with
  | nil =>
    rw [List.nil_append, splitFirst_of_pfx (pfx_append_self qrSep rest)]
    simp [qrSep_def]
  | cons c p ih =>
    have hc : c ≠ 'Q' := h c (by simp)
    have hpf : pfx qrSep (c :: (p ++ (qrSep ++ rest))) = false := by
      simp [pfx, qrSep_def, Ne.symm hc]
    simp [splitFirst, hpf, ih (fun d hd => h d (by simp [hd]))]

lemma splitOnChar_no_sep {ys : Str} (h : ∀ c ∈ ys, c ≠ 'P') :
    splitOnChar 'P' ys = [ys] := by
  induction ys with
  | nil => rfl
  | cons c t ih =>
    simp [splitOnChar, h c (by simp), ih (fun d hd => h d (by simp [hd]))]

lemma splitOnChar_single (xs ys : Str) (hx : ∀ c ∈ xs, c ≠ 'P') (hy : ∀ c ∈ ys, c ≠ 'P') :
    splitOnChar 'P' (xs ++ 'P' :: ys) = [xs, ys] := by
  induction xs with
  | nil => simp [splitOnChar, splitOnChar_no_sep hy]
  | cons c t ih =>
    simp [splitOnChar, hx c (by simp), ih (fun d hd => hx d (by simp [hd]))]

lemma natRepr_ne_P {n : Nat} {d : Char} (hd : d ∈ natRepr n) : d ≠ 'P' := by
  intro he
  have hb := natReprAux_digits (n + 1) n d hd
  rw [he] at hb
  exact absurd hb.2 (by decide)

lemma natRepr_ne_Q {n : Nat} {d : Char} (hd : d ∈ natRepr n) : d ≠ 'Q' := by
  intro he
  have hb := natReprAux_digits (n + 1) n d hd
  rw [he] at hb
  exact absurd hb.2 (by decide)

lemma parseFrame_mkLabel (i t : Nat) (chunk : Str) :
    parseFrame (mkLabel i t chunk) = some ((i : Int), (t : Int), chunk) := by
  have hpre : ∀ c ∈ natRepr i ++ 'P' :: natRepr t, c ≠ 'Q' := by
    intro c hc
    rcases List.mem_append.1 hc with h | h
    · exact natRepr_ne_Q h
    · rcases List.mem_cons.1 h with h | h
      · rw [h]; decide
      · exact natRepr_ne_Q h
  unfold parseFrame mkLabel
  rw [splitFirst_qrSep _ _ hpre]
  simp [splitOnChar_single _ _ (fun d hd => natRepr_ne_P hd) (fun d hd => natRepr_ne_P hd),
    pyInt_natRepr]

lemma mapM_labelChunks (t : Nat) : ∀ (cks : List Str) (j : Nat),
    (labelChunks t j cks).mapM parseFrame = some (tripleList t j cks) := by
  intro cks
  induction cks with
  | nil => intro j; rfl
  | cons c rest ih =>
    intro j
    rw [labelChunks, tripleList]
    rw [List.mapM_cons, parseFrame_mkLabel, ih (j + 1)]
    rfl

lemma tripleList_fst_gt (t : Nat) : ∀ (cks : List Str) (j : Nat),
    ∀ p ∈ tripleList t j cks, (j : Int) < p.1 := by
  intro cks
  induction cks with
  | nil => intro j p hp; simp [tripleList] at hp
  | cons c rest ih =>
    intro j p hp
    rw [tripleList] at hp
    rcases List.mem_cons.1 hp with h | h
    · rw [h]; push_cast; omega
    · have := ih (j + 1) p h
      push_cast at this ⊢
      omega

lemma tripleList_nodup (t : Nat) : ∀ (cks : List Str) (j : Nat),
    ((tripleList t j cks).map (fun p => p.1)).Nodup := by
  intro cks
  induction cks with
  | nil => intro j; simp [tripleList]
  | cons c rest ih =>
    intro j
    rw [tripleList, List.map_cons, List.nodup_cons]
    refine ⟨?_, ih (j + 1)⟩
    intro hmem
    rcases List.mem_map.1 hmem with ⟨p, hp, hfst⟩
    have := tripleList_fst_gt t rest (j + 1) p hp
    rw [hfst] at this
    push_cast at this
    omega

lemma tripleList_total (t : Nat) : ∀ (cks : List Str) (j : Nat),
    ∀ p ∈ tripleList t j cks, p.2.1 = (t : Int) := by
  intro cks
  induction cks with
  | nil => intro j p hp; simp [tripleList] at hp
  | cons c rest ih =>
    intro j p hp
    rw [tripleList] at hp
    rcases List.mem_cons.1 hp with h | h
    · rw [h]
    · exact ih (j + 1) p h

lemma tripleList_map_pair (t : Nat) : ∀ (cks : List Str) (j : Nat),
    (tripleList t j cks).map (fun p => (p.1, p.2.2)) = pairList j cks := by
  intro cks
  induction cks with
  | nil => intro j; rfl
  | cons c rest ih =>
    intro j
    rw [tripleList, pairList, List.map_cons, ih (j + 1)]

lemma tripleList_length (t : Nat) : ∀ (cks : List Str) (j : Nat),
    (tripleList t j cks).length = cks.length := by
  intro cks
  induction cks with
  | nil => intro j; rfl
  | cons c rest ih =>
    intro j
    rw [tripleList, List.length_cons, ih (j + 1), List.length_cons]

lemma pairList_length : ∀ (cks : List Str) (j : Nat),
    (pairList j cks).length = cks.length := by
  intro cks
  induction cks with
  | nil => intro j; rfl
  | cons c rest ih =>
    intro j
    rw [pairList, List.length_cons, ih (j + 1), List.length_cons]

lemma dlookup_append_none {k : Int} {a b : List (Int × Str)} (h : dlookup k a = none) :
    dlookup k (a ++ b) = dlookup k b := by
  induction a with
  | nil => rfl
  | cons e t ih =>
    obtain ⟨k2, v⟩ := e
    rw [dlookup] at h
    rw [List.cons_append, dlookup]
    by_cases hk : k2 = k
    · rw [if_pos hk] at h
      exact absurd h (by simp)
    · rw [if_neg hk] at h ⊢
      exact ih h

lemma dinsert_absent {k : Int} {v : Str} {d : List (Int × Str)} (h : dlookup k d = none) :
    dinsert k v d = d ++ [(k, v)] := by
  simp [dinsert, h]

lemma foldl_dinsert (t : Int) : ∀ (L : List (Int × Int × Str)) (acc : List (Int × Str))
    (tp : Option Int),
    (∀ p ∈ L, dlookup p.1 acc = none) → ((L.map (fun p => p.1)).Nodup) →
    (∀ p ∈ L, p.2.1 = t) → L ≠ [] →
    L.foldl (fun st p => (dinsert p.1 p.2.2 st.1, some p.2.1)) (acc, tp)
      = (acc ++ L.map (fun p => (p.1, p.2.2)), some t) := by
  intro L
  induction L with
  | nil => intro acc tp _ _ _ hne; exact absurd rfl hne
  | cons p L2 ih =>
    intro acc tp hacc hnd ht _
    rw [List.foldl_cons, dinsert_absent (hacc p (by simp))]
    cases L2 with
    | nil => simp [ht p (by simp)]
    | cons q L3 =>
      have hacc2 : ∀ r ∈ q :: L3, dlookup r.1 (acc ++ [(p.1, p.2.2)]) = none := by
        intro r hr
        have hne : r.1 ≠ p.1 := by
          have hnotin : p.1 ∉ (q :: L3).map (fun p => p.1) := (List.nodup_cons.1 hnd).1
          intro he
          exact hnotin (he ▸ List.mem_map_of_mem _ hr)
        rw [dlookup_append_none (hacc r (by simp [hr]))]
        simp [dlookup, Ne.symm hne]
      have hstep := ih (acc ++ [(p.1, p.2.2)]) (some p.2.1) hacc2 (List.nodup_cons.1 hnd).2
        (fun r hr => ht r (by simp [hr])) (by simp)
      rw [hstep]
      simp

lemma gather_pairList : ∀ (cks : List Str) (j : Nat) (P : List (Int × Str)),
    (∀ i : Int, (j : Int) < i → dlookup i P = none) →
    gatherParts (P ++ pairList j cks)
        ((List.range cks.length).map (fun m => ((j + m + 1 : Nat) : Int)))
      = some cks.flatten := by
  intro cks
  induction cks with
  | nil =>
    intro j P hP
    simp [pairList, gatherParts]
  | cons c rest ih =>
    intro j P hP
    have hkeys : (List.range (c :: rest).length).map (fun m => ((j + m + 1 : Nat) : Int))
        = (((j + 1 : Nat) : Int))
          :: (List.range rest.length).map (fun m => (((j + 1) + m + 1 : Nat) : Int)) := by
      rw [List.length_cons, List.range_succ_eq_map, List.map_cons, List.map_map]
      refine congrArg₂ _ (by norm_num) (List.map_congr_left (fun m hm => ?_))
      simp only [Function.comp]
      congr 1
      omega
    rw [hkeys, pairList, gatherParts]
    have hl1 : dlookup (((j + 1 : Nat) : Int))
        (P ++ (((j + 1 : Nat) : Int), c) :: pairList (j + 1) rest) = some c := by
      rw [dlookup_append_none (hP _ (by push_cast; omega))]
      rw [dlookup, if_pos rfl]
    have hP2 : ∀ i : Int, ((j + 1 : Nat) : Int) < i →
        dlookup i (P ++ [(((j + 1 : Nat) : Int), c)]) = none := by
      intro i hi
      rw [dlookup_append_none (hP i (by push_cast at hi ⊢; omega))]
      have hne : ¬(((j + 1 : Nat) : Int) = i) := by omega
      rw [dlookup, if_neg hne, dlookup]
    have hrest := ih (j + 1) (P ++ [(((j + 1 : Nat) : Int), c)]) hP2
    rw [List.append_assoc, List.singleton_append] at hrest
    rw [hl1, hrest]
    simp

lemma reconstructBase64_cons2 (x y : Str) (l : List Str) :
    reconstructBase64 (x :: y :: l) = reconstructMulti (x :: y :: l) := rfl

lemma reconstructMulti_some {ds : List Str} {triples : List (Int × Int × Str)}
    (h : ds.mapM parseFrame = some triples) :
    reconstructMulti ds = joinPhase (foldParts triples).1 (foldParts triples).2 := by
  unfold reconstructMulti
  rw [h]

lemma joinPhase_some (parts : List (Int × Str)) (t : Int) :
    joinPhase parts (some t)
      = if (parts.length : Int) = t then
          (match gatherParts parts (pyRange1 t) with
            | none => .error .KeyErrorCrash
            | some s => .ok s)
        else .error .MissingParts := rfl

lemma pyRange1_cast (n : Nat) :
    pyRange1 ((n : Nat) : Int) = (List.range n).map (fun m => ((0 + m + 1 : Nat) : Int)) := by
  unfold pyRange1
  rw [Int.toNat_natCast]
  refine List.map_congr_left (fun m hm => ?_)
  congr 1
  omega

lemma foldParts_tripleList (t : Nat) (cks : List Str) (hne : cks ≠ []) :
    foldParts (tripleList t 0 cks) = (pairList 0 cks, some ((t : Nat) : Int)) := by
  unfold foldParts
  rw [foldl_dinsert ((t : Nat) : Int) (tripleList t 0 cks) [] none
    (fun p hp => rfl) (tripleList_nodup t cks 0) (tripleList_total t cks 0) ?_]
  · rw [List.nil_append, tripleList_map_pair]
  · cases cks with
    | nil => exact absurd rfl hne
    | cons c rest => simp [tripleList]

/-- Joining the complete in-order labeled frame list of any chunk list
with at least two chunks recovers the chunk concatenation. -/
lemma reconstruct_complete (cks : List Str) (hlen : 2 ≤ cks.length) :
    reconstructBase64 (labelChunks cks.length 0 cks) = .ok cks.flatten := by
  rcases cks with _ | ⟨c1, cks1⟩
  · simp at hlen
  rcases cks1 with _ | ⟨c2, cks2⟩
  · simp at hlen
  have hm := mapM_labelChunks (c1 :: c2 :: cks2).length (c1 :: c2 :: cks2) 0
  have hfold := foldParts_tripleList (c1 :: c2 :: cks2).length (c1 :: c2 :: cks2) (by simp)
  have hg := gather_pairList (c1 :: c2 :: cks2) 0 [] (fun i hi => rfl)
  rw [List.nil_append] at hg
  rw [labelChunks, labelChunks] at hm ⊢
  rw [reconstructBase64_cons2, reconstructMulti_some hm, hfold]
  show joinPhase (pairList 0 (c1 :: c2 :: cks2))
    (some (((c1 :: c2 :: cks2).length : Nat) : Int)) = _
  rw [joinPhase_some]
  have hplen : ((pairList 0 (c1 :: c2 :: cks2)).length : Int)
      = (((c1 :: c2 :: cks2).length : Nat) : Int) := by
    rw [pairList_length]
  rw [if_pos hplen, pyRange1_cast, hg]

lemma labelChunks_length (t : Nat) : ∀ (cks : List Str) (j : Nat),
    (labelChunks t j cks).length = cks.length := by
  intro cks
  induction cks with
  | nil => intro j; rfl
  | cons c rest ih =>
    intro j
    rw [labelChunks, List.length_cons, ih (j + 1), List.length_cons]

lemma map_eraseIdx {α β : Type} (f : α → β) : ∀ (l : List α) (k : Nat),
    (l.eraseIdx k).map f = (l.map f).eraseIdx k := by
  intro l
  induction l with
  | nil => intro k; rfl
  | cons x xs ih =>
    intro k
    cases k with
    | zero => rfl
    | succ k => simp [List.eraseIdx, ih k]

lemma mapM_eraseIdx {α β : Type} (f : α → Option β) : ∀ (l : List α) (r : List β) (k : Nat),
    l.mapM f = some r → (l.eraseIdx k).mapM f = some (r.eraseIdx k) := by
  intro l
  induction l with
  | nil =>
    intro r k h
    simp only [List.mapM_nil] at h
    cases h
    rfl
  | cons x xs ih =>
    intro r k h
    rw [List.mapM_cons] at h
    cases hfx : f x with
    | none => rw [hfx] at h; simp at h
    | some b =>
      rw [hfx] at h
      cases hxs : xs.mapM f with
      | none => rw [hxs] at h; simp at h
      | some bs =>
        rw [hxs] at h
        simp at h
        subst h
        cases k with
        | zero => simpa [List.eraseIdx] using hxs
        | succ k =>
          simp only [List.eraseIdx]
          rw [List.mapM_cons, hfx, ih bs k hxs]
          rfl

/-! ## C3: QR join gap detection -/

/-- C3 (counterexample): for a complete set with `total = 2`, removing
one frame leaves the single labeled frame `"1P2QR: ab"`, and
`reconstruct_base64` returns it verbatim through the single-element
pass-through instead of failing with the missing-parts error. -/
theorem C3_gap_counterexample :
    reconstructBase64 [("1P2QR: ab").data] = .ok (("1P2QR: ab").data) := by decide

/-- C3 (amended): for every complete labeled frame set with
`total ≥ 3`, removing any one frame makes the join fail with
`MissingParts`; with `total = 2` the remaining single frame is instead
returned verbatim (see the counterexample). -/
theorem C3_remove_frame_missing_parts (cks : List Str) (k : Nat)
    (h3 : 3 ≤ cks.length) (hk : k < cks.length) :
    reconstructBase64 ((labelChunks cks.length 0 cks).eraseIdx k) = .error .MissingParts := by
  have hm := mapM_labelChunks cks.length cks 0
  have hmE := mapM_eraseIdx parseFrame (labelChunks cks.length 0 cks)
    (tripleList cks.length 0 cks) k hm
  have hklt : k < (labelChunks cks.length 0 cks).length := by
    rw [labelChunks_length]
    exact hk
  have hlenE : ((labelChunks cks.length 0 cks).eraseIdx k).length = cks.length - 1 := by
    rw [List.length_eraseIdx, if_pos hklt, labelChunks_length]
  have hlen2 : 2 ≤ ((labelChunks cks.length 0 cks).eraseIdx k).length := by omega
  rcases hL : (labelChunks cks.length 0 cks).eraseIdx k with _ | ⟨x, _ | ⟨y, l⟩⟩
  · rw [hL] at hlen2; simp at hlen2
  · rw [hL] at hlen2; simp at hlen2
  rw [hL] at hmE
  rw [reconstructBase64_cons2, reconstructMulti_some hmE]
  have hkt : k < (tripleList cks.length 0 cks).length := by
    rw [tripleList_length]
    exact hk
  have hndE : (((tripleList cks.length 0 cks).eraseIdx k).map (fun p => p.1)).Nodup := by
    rw [map_eraseIdx]
    exact (List.eraseIdx_sublist _ k).nodup (tripleList_nodup cks.length cks 0)
  have htotE : ∀ p ∈ (tripleList cks.length 0 cks).eraseIdx k,
      p.2.1 = ((cks.length : Nat) : Int) :=
    fun p hp => tripleList_total cks.length cks 0 p ((List.eraseIdx_sublist _ k).subset hp)
  have hlenT : ((tripleList cks.length 0 cks).eraseIdx k).length = cks.length - 1 := by
    rw [List.length_eraseIdx, if_pos hkt, tripleList_length]
  have hneE : (tripleList cks.length 0 cks).eraseIdx k ≠ [] := by
    intro he
    rw [he] at hlenT
    simp at hlenT
    omega
  unfold foldParts
  rw [foldl_dinsert ((cks.length : Nat) : Int) _ [] none (fun p hp => rfl) hndE htotE hneE]
  show joinPhase ([] ++ ((tripleList cks.length 0 cks).eraseIdx k).map (fun p => (p.1, p.2.2)))
    (some ((cks.length : Nat) : Int)) = _
  rw [joinPhase_some, if_neg ?_]
  rw [List.nil_append, List.length_map, hlenT]
  omega

/-- C3 (witness): removing the first frame of a complete 3-frame set. -/
theorem C3_remove_frame_witness :
    3 ≤ ([[('a' : Char)], [('b' : Char)], [('c' : Char)]] : List Str).length ∧
    reconstructBase64 ((labelChunks
        ([[('a' : Char)], [('b' : Char)], [('c' : Char)]] : List Str).length 0
        [[('a' : Char)], [('b' : Char)], [('c' : Char)]]).eraseIdx 0)
      = .error .MissingParts :=
  ⟨by decide, C3_remove_frame_missing_parts [['a'], ['b'], ['c']] 0 (by decide) (by decide)⟩

/-! ## C4: QR join duplicate handling -/

/-- C4 (counterexample): two frames declaring index 1 with different
chunks `"aa"` and `"bb"` plus a frame for index 2 do not produce any
duplicate error; the join succeeds and the later chunk `"bb"` wins. -/
theorem C4_duplicate_counterexample :
    reconstructBase64 [("1P2QR: aa").data, ("1P2QR: bb").data, ("2P2QR: cc").data]
      = .ok (("bbcc").data) := by decide

/-- C4 (amended): when two frames declare the same index with different
content, `reconstruct_base64` does not fail: `parts[part_num] = b64data`
overwrites, so the frame appearing later in the scan order wins and the
join succeeds with the later chunk. The hypothesis `hab` keeps the
claim's scope (same index, different content); the result holds whether
or not the chunks differ. -/
theorem C4_duplicate_last_wins (a b c : Str) (_hab : a ≠ b) :
    reconstructBase64 [("1P2QR: ").data ++ a, ("1P2QR: ").data ++ b, ("2P2QR: ").data ++ c]
      = .ok (b ++ c) := by
  have h : reconstructBase64
      [("1P2QR: ").data ++ a, ("1P2QR: ").data ++ b, ("2P2QR: ").data ++ c]
      = .ok (b ++ (c ++ [])) := rfl
  simpa using h

/-- C4 (witness): the amended behavior at concrete distinct chunks. -/
theorem C4_duplicate_witness :
    (("x").data : Str) ≠ ("y").data ∧
    reconstructBase64 [("1P2QR: ").data ++ ("x").data, ("1P2QR: ").data ++ ("y").data,
        ("2P2QR: ").data ++ ("z").data]
      = .ok (("y").data ++ ("z").data) :=
  ⟨by decide, C4_duplicate_last_wins (("x").data) (("y").data) (("z").data) (by decide)⟩

/-! ## C5: QR single-frame pass-through -/

/-- C5 (counterexample): a single scanned string that does match the
label pattern is still returned verbatim as the body, contradicting the
claim that such a string is not passed through. -/
theorem C5_single_labeled_counterexample :
    reconstructBase64 [("1P3QR: abc").data] = .ok (("1P3QR: abc").data) := by decide

/-- C5 (amended): when `reconstruct_base64` receives exactly one
string, it returns that string as the entire body unconditionally —
whether or not it matches the label pattern. -/
theorem C5_single_passthrough_unconditional (d : Str) :
    reconstructBase64 [d] = .ok d := rfl

/-! ## C6: QR split/join left inverse -/

/-- C6: for every non-empty body and chunk size at least 1, joining the
full list of frames produced by the split (a single unlabeled frame
when the body fits one chunk, labeled frames otherwise) recovers the
body exactly; in particular body `"SGVsbG8="` at chunk size 3 yields
the three labeled frames and joining them recovers `"SGVsbG8="`. -/
theorem C6_split_join_left_inverse :
    (∀ (b : Str) (cs : Nat), b ≠ [] → 1 ≤ cs →
      reconstructBase64 (splitForQR b cs) = .ok b) ∧
    splitForQR (("SGVsbG8=").data) 3
      = [("1P3QR: SGV").data, ("2P3QR: sbG").data, ("3P3QR: 8=").data] ∧
    reconstructBase64 [("1P3QR: SGV").data, ("2P3QR: sbG").data, ("3P3QR: 8=").data]
      = .ok (("SGVsbG8=").data) := by
  refine ⟨?_, by decide, by decide⟩
  intro b cs hb hcs
  unfold splitForQR
  by_cases hlen : cs < b.length
  · rw [if_pos hlen]
    unfold splitParts
    have htot : (b.length + cs - 1) / cs = (chunksOf cs b).length := (chunksOf_length hcs b).symm
    rw [htot]
    have h2 : 2 ≤ (chunksOf cs b).length := by
      rw [chunksOf_length hcs b]
      rw [Nat.le_div_iff_mul_le (by omega)]
      omega
    rw [reconstruct_complete _ h2, chunksOf_flatten hcs]
  · rw [if_neg hlen]
    rfl

/-- C6 (witness): the left inverse at a one-character body. -/
theorem C6_split_join_witness :
    ([('a' : Char)] : Str) ≠ [] ∧
    reconstructBase64 (splitForQR [('a' : Char)] 1) = .ok [('a' : Char)] :=
  ⟨by decide, C6_split_join_left_inverse.1 [('a' : Char)] 1 (by decide) (by decide)⟩

/-! ## Lemmas: frequency mapping of the audio modem -/

lemma mapFreqAux_hit (f : ℚ) : ∀ (l : Str) (idx k : Nat), k < l.length →
    (∀ j, j < k → ¬ ratAbs (f - (300 + ((idx + j : Nat) : ℚ) * 50)) ≤ 10) →
    ratAbs (f - (300 + ((idx + k : Nat) : ℚ) * 50)) ≤ 10 →
    mapFreqAux f idx l = l.get? k := by
  intro l
  induction l with
  | nil => intro idx k hk _ _; simp at hk
  | cons c rest ih =>
    intro idx k hk hmiss hhit
    cases k with
    | zero =>
      rw [mapFreqAux, if_pos (by simpa using hhit)]
      rfl
    | succ k =>
      have h0 := hmiss 0 (by omega)
      rw [mapFreqAux, if_neg (by simpa using h0)]
      have hmiss2 : ∀ j, j < k → ¬ ratAbs (f - (300 + ((idx + 1 + j : Nat) : ℚ) * 50)) ≤ 10 := by
        intro j hj
        have := hmiss (j + 1) (by omega)
        have he : idx + (j + 1) = idx + 1 + j := by omega
        rwa [he] at this
      have hhit2 : ratAbs (f - (300 + ((idx + 1 + k : Nat) : ℚ) * 50)) ≤ 10 := by
        have he : idx + (k + 1) = idx + 1 + k := by omega
        rwa [he] at hhit
      rw [ih (idx + 1) k (by simpa using hk) hmiss2 hhit2]
      rfl

lemma mapFreqAux_none (f : ℚ) : ∀ (l : Str) (idx : Nat),
    (∀ j, j < l.length → ¬ ratAbs (f - (300 + ((idx + j : Nat) : ℚ) * 50)) ≤ 10) →
    mapFreqAux f idx l = none := by
  intro l
  induction l with
  | nil => intro idx _; rfl
  | cons c rest ih =>
    intro idx hmiss
    rw [mapFreqAux, if_neg (by simpa using hmiss 0 (by simp))]
    refine ih (idx + 1) (fun j hj => ?_)
    have := hmiss (j + 1) (by simpa using hj)
    have he : idx + (j + 1) = idx + 1 + j := by omega
    rwa [he] at this

lemma mapFreqAux_mem (f : ℚ) : ∀ (l : Str) (idx : Nat) (c : Char),
    mapFreqAux f idx l = some c → c ∈ l := by
  intro l
  induction l with
  | nil => intro idx c h; exact absurd h (by simp [mapFreqAux])
  | cons a rest ih =>
    intro idx c h
    rw [mapFreqAux] at h
    by_cases hc : ratAbs (f - (300 + (idx : ℚ) * 50)) ≤ 10
    · rw [if_pos hc] at h
      simp at h
      simp [h]
    · rw [if_neg hc] at h
      exact List.mem_cons_of_mem a (ih (idx + 1) c h)

/-! ## C8: audio tolerance boundary -/

/-- C8: a detected frequency exactly `FREQ_TOLERANCE = 10` away from an
alphabet slot's expected frequency `300 + 50 * i` (on either side)
still maps to that slot's character; a frequency at least 11 Hz away
from every slot's expected frequency maps to no character — the window
raises `ValueError` and is dropped from the collected output. -/
theorem C8_tolerance_boundary :
    (∀ i : Nat, i < 64 →
      mapFrequencyToB64Char (300 + 50 * (i : ℚ) + 10) = rcvAlphabet.get? i ∧
      mapFrequencyToB64Char (300 + 50 * (i : ℚ) - 10) = rcvAlphabet.get? i) ∧
    (∀ f : ℚ, (∀ i : Nat, i < 64 → 11 ≤ ratAbs (f - (300 + 50 * (i : ℚ)))) →
      mapFrequencyToB64Char f = none) ∧
    (∀ f : ℚ, (∀ i : Nat, i < 64 → 11 ≤ ratAbs (f - (300 + 50 * (i : ℚ)))) →
      ∀ freqs : List ℚ, decodeFrequencies (f :: freqs) = decodeFrequencies freqs) := by
  have hlen64 : rcvAlphabet.length = 64 := by decide
  have hnone : ∀ f : ℚ, (∀ i : Nat, i < 64 → 11 ≤ ratAbs (f - (300 + 50 * (i : ℚ)))) →
      mapFrequencyToB64Char f = none := by
    intro f h
    unfold mapFrequencyToB64Char
    refine mapFreqAux_none f rcvAlphabet 0 (fun j hj hle => ?_)
    have hj64 : j < 64 := hlen64 ▸ hj
    have harg : f - (300 + ((0 + j : Nat) : ℚ) * 50) = f - (300 + 50 * (j : ℚ)) := by
      push_cast
      ring
    rw [harg] at hle
    have h11 := h j hj64
    unfold ratAbs at hle h11
    split_ifs at hle h11 <;> linarith
  refine ⟨?_, hnone, ?_⟩
  · intro i hi
    constructor
    · refine mapFreqAux_hit _ rcvAlphabet 0 i (hlen64 ▸ hi) ?_ ?_
      · intro j hj hle
        have hji : (j : ℚ) + 1 ≤ (i : ℚ) := by exact_mod_cast hj
        have harg : 300 + 50 * (i : ℚ) + 10 - (300 + ((0 + j : Nat) : ℚ) * 50)
            = 50 * ((i : ℚ) - (j : ℚ)) + 10 := by
          push_cast
          ring
        rw [harg] at hle
        unfold ratAbs at hle
        split_ifs at hle with hneg <;> linarith
      · have harg : 300 + 50 * (i : ℚ) + 10 - (300 + ((0 + i : Nat) : ℚ) * 50) = 10 := by
          push_cast
          ring
        rw [harg]
        norm_num [ratAbs]
    · refine mapFreqAux_hit _ rcvAlphabet 0 i (hlen64 ▸ hi) ?_ ?_
      · intro j hj hle
        have hji : (j : ℚ) + 1 ≤ (i : ℚ) := by exact_mod_cast hj
        have harg : 300 + 50 * (i : ℚ) - 10 - (300 + ((0 + j : Nat) : ℚ) * 50)
            = 50 * ((i : ℚ) - (j : ℚ)) - 10 := by
          push_cast
          ring
        rw [harg] at hle
        unfold ratAbs at hle
        split_ifs at hle with hneg <;> linarith
      · have harg : 300 + 50 * (i : ℚ) - 10 - (300 + ((0 + i : Nat) : ℚ) * 50) = -10 := by
          push_cast
          ring
        rw [harg]
        norm_num [ratAbs]
  · intro f h freqs
    simp [decodeFrequencies, List.filterMap_cons, hnone f h]

/-- C8 (witness): slot 0 (character `'A'`, expected 300 Hz) accepts
310 Hz; 361 Hz — exactly 11 Hz from slot 1's 350 Hz and farther from
all others — maps to no character. -/
theorem C8_tolerance_witness :
    mapFrequencyToB64Char (300 + 50 * ((0 : Nat) : ℚ) + 10) = rcvAlphabet.get? 0 ∧
    mapFrequencyToB64Char 361 = none := by
  have hfar : ∀ i : Nat, i < 64 → 11 ≤ ratAbs (361 - (300 + 50 * (i : ℚ))) := by
    intro i hi
    rcases i with _ | i
    · norm_num [ratAbs]
    rcases i with _ | j
    · norm_num [ratAbs]
    · have hc : ((j + 1 + 1 : Nat) : ℚ) = (j : ℚ) + 2 := by push_cast; ring
      have hjn : (0 : ℚ) ≤ (j : ℚ) := Nat.cast_nonneg j
      unfold ratAbs
      rw [hc, if_pos (by linarith)]
      linarith
  exact ⟨(C8_tolerance_boundary.1 0 (by norm_num)).1, C8_tolerance_boundary.2.1 361 hfar⟩

/-! ## C9: base64 padding and the audio alphabet -/

/-- C9: the padding character `'='` is in neither the encode-side nor
the decode-side 64-character alphabet; the modulator therefore emits no
tone for any `'='` in the body (the frequency stream of `body ++ "="`
equals that of `body`, and likewise for interior `'='`); the
demodulator's per-window mapping only ever emits alphabet characters,
so no demodulated output can equal a body containing `'='` — a padded
base64 body is never reproduced exactly. -/
theorem C9_padding_unrepresentable :
    (('=') ∉ sndAlphabet ∧ ('=') ∉ rcvAlphabet) ∧
    (∀ s t : Str, generateFrequencies (s ++ '=' :: t) = generateFrequencies (s ++ t)) ∧
    (∀ freqs : List ℚ, ∀ c ∈ decodeFrequencies freqs, c ∈ rcvAlphabet) ∧
    (∀ body : Str, ('=') ∈ body → ∀ freqs : List ℚ, decodeFrequencies freqs ≠ body) := by
  have hmem : ∀ freqs : List ℚ, ∀ c ∈ decodeFrequencies freqs, c ∈ rcvAlphabet := by
    intro freqs c hc
    rcases List.mem_filterMap.1 hc with ⟨f, hf, hmap⟩
    exact mapFreqAux_mem f rcvAlphabet 0 c hmap
  refine ⟨by decide, ?_, hmem, ?_⟩
  · intro s t
    have hnone : charFrequency ('=') = none := by decide
    simp [generateFrequencies, List.filterMap_append, List.filterMap_cons, hnone]
  · intro body hbody freqs heq
    have hin : ('=') ∈ rcvAlphabet := by
      refine hmem freqs ('=') ?_
      rw [heq]
      exact hbody
    exact absurd hin (by decide)

/-- C9 (witness): skipping the padding of `"A="` and the impossibility
of demodulating to `"="`. -/
theorem C9_padding_witness :
    generateFrequencies (("A").data ++ '=' :: []) = generateFrequencies (("A").data ++ []) ∧
    decodeFrequencies ([] : List ℚ) ≠ [('=' : Char)] :=
  ⟨C9_padding_unrepresentable.2.1 (("A").data) [],
    C9_padding_unrepresentable.2.2.2 [('=' : Char)] (by decide) []⟩

/-! ## C10: the public-key length check of `examples/python/decode.py` -/

/-- C10: `decode_bech32_public_key` raises for every input on which the
external bech32 decode and bit conversion succeed — in particular for a
correctly tagged key of any length, 64 bytes included — because
`len(pubkey_bytes) not in (64)` applies `in` to the integer 64 and
raises `TypeError` before any length comparison; consequently the
function never returns a key, so the optional verification path of
`main` can never reach signature verification with a decoded public
key. -/
theorem C10_pubkey_decode_always_raises :
    (∀ bs : List Nat, decodeBech32PublicKey (some acpubHrp) (some bs) = .error .typeError) ∧
    (∀ (h : Option Str) (d : Option (List Nat)) (k : List Nat),
      decodeBech32PublicKey h d ≠ .ok k) := by
  constructor
  · intro bs
    rfl
  · intro h d k
    unfold decodeBech32PublicKey
    split
    · cases d <;> simp
    · simp

/-- C10 (witness): the 64-byte all-zero key raises `TypeError` and is
never returned. -/
theorem C10_pubkey_witness :
    decodeBech32PublicKey (some acpubHrp) (some (List.replicate 64 0)) = .error .typeError ∧
    decodeBech32PublicKey (some acpubHrp) (some (List.replicate 64 0))
      ≠ .ok (List.replicate 64 0) :=
  ⟨C10_pubkey_decode_always_raises.1 (List.replicate 64 0),
    C10_pubkey_decode_always_raises.2 (some acpubHrp) (some (List.replicate 64 0))
      (List.replicate 64 0)⟩
